import Mathlib

/-!
# Verification of the Writer1 import pipeline (importer.js / editor.js)

Shallow embedding of the heading-detection / chapter-segmentation engine of
the repository (file `importer.js`: `clean`, `isAllCapsShort`, `isHeadingLike`,
the `CHAPTER_RE` / `PART_RE` / `FRONT_RE` regular expressions,
`paragraphToTiptap`, `textToDoc`, `splitFromParagraphs`, the format routing of
`parseImportFile`) and of the plain-text projection `editorToPlainText` of
`editor.js`.

Modelling conventions:
* JavaScript strings are modelled as Lean `String` / `List Char` over Unicode
  code points (JS `.length` counts UTF-16 units; for the claims at hand the
  difference only shows up on astral-plane characters).
* The JS whitespace class `\s` is modelled by `isWS`, covering exactly the
  code points the ECMAScript `\s` class matches.
* `toLowerCase` / `toUpperCase` are modelled on the Basic Latin and Latin-1
  ranges (including `ß → SS`, `ÿ → Ÿ`, `µ → Μ` for uppercasing); the regexes
  of the source are ASCII-only, so the `/i` flag is modelled by lowercasing
  the subject with `jsLower` and matching against lowercase literals.
* The anchored regex tests `CHAPTER_RE.test`, `PART_RE.test`, `FRONT_RE.test`,
  `/heading\s*([12])/.test` and `/heading\s*1/.test` are compiled by hand into
  executable matchers; greedy runs followed by a `\b` word-boundary assertion
  are equivalent to "maximal run, then boundary" because backing off a
  character class run always leaves the boundary between two word characters.
-/

/-- The ECMAScript `\s` whitespace class (space, tab, LF, VT, FF, CR, NBSP,
and the Unicode space separators, line/paragraph separators and BOM). -/
def isWS (c : Char) : Bool :=
  c = ' ' || c = '\t' || c = '\n' || c.toNat = 11 || c.toNat = 12 ||
  c = '\r' || c.toNat = 0xA0 || c.toNat = 0x1680 ||
  (0x2000 ≤ c.toNat && c.toNat ≤ 0x200A) ||
  c.toNat = 0x2028 || c.toNat = 0x2029 || c.toNat = 0x202F ||
  c.toNat = 0x205F || c.toNat = 0x3000 || c.toNat = 0xFEFF

/-- JS `String.prototype.toLowerCase`, per character, on the ASCII and
Latin-1 letter ranges (all characters the source's patterns can react to). -/
def jsLower (c : Char) : Char :=
  if 'A' ≤ c && c ≤ 'Z' then Char.ofNat (c.toNat + 32)
  else if 0xC0 ≤ c.toNat && c.toNat ≤ 0xDE && c.toNat ≠ 0xD7 then
    Char.ofNat (c.toNat + 32)
  else c

/-- JS `String.prototype.toUpperCase`, per character, on the ASCII and
Latin-1 ranges; `ß` expands to `SS`, `ÿ` maps to `Ÿ`, `µ` to a Greek capital
Mu, which is why the result is a list. -/
def jsUpperChar (c : Char) : List Char :=
  if 'a' ≤ c && c ≤ 'z' then [Char.ofNat (c.toNat - 32)]
  else if c.toNat = 0xDF then ['S', 'S']
  else if c.toNat = 0xB5 then [Char.ofNat 0x39C]
  else if c.toNat = 0xFF then [Char.ofNat 0x178]
  else if 0xE0 ≤ c.toNat && c.toNat ≤ 0xFE && c.toNat ≠ 0xF7 then
    [Char.ofNat (c.toNat - 32)]
  else [c]

/-- JS `s.toUpperCase()` on a character list. -/
def jsUpperStr (cs : List Char) : List Char :=
  (cs.map jsUpperChar).flatten

/-- Emit the pending word accumulator (held in reverse) if it is non-empty. -/
def flushAcc (acc : List Char) : List (List Char) :=
  if acc.isEmpty then [] else [acc.reverse]

/-- Split a character list into its maximal runs of non-whitespace
characters ("words"); `acc` holds the current word in reverse. -/
def wordsAux : List Char → List Char → List (List Char)
  | [], acc => flushAcc acc
  | c :: rest, acc =>
    if isWS c then flushAcc acc ++ wordsAux rest []
    else wordsAux rest (c :: acc)

/-- The maximal non-whitespace runs of a character list, in order. -/
def wordsOf (cs : List Char) : List (List Char) :=
  wordsAux cs []

/-- Join a list of lists with a separator (JS `Array.prototype.join`). -/
def joinSep (sep : List Char) : List (List Char) → List Char
  | [] => []
  | [x] => x
  | x :: xs => x ++ sep ++ joinSep sep xs

/-- `replace(/\s+/g, " ")`: collapse every maximal whitespace run to a single
space.  The flag records whether the previous character was whitespace (i.e.
whether a run is already being collapsed). -/
def cwGo : Bool → List Char → List Char
  | _, [] => []
  | prevWS, c :: rest =>
    if isWS c then
      if prevWS then cwGo true rest else ' ' :: cwGo true rest
    else c :: cwGo false rest

/-- `s.replace(/\s+/g, " ")` of importer.js `clean`. -/
def collapseWS (cs : List Char) : List Char :=
  cwGo false cs

/-- Strip leading JS whitespace. -/
def trimL (cs : List Char) : List Char :=
  cs.dropWhile isWS

/-- Strip trailing JS whitespace. -/
def trimR (cs : List Char) : List Char :=
  (cs.reverse.dropWhile isWS).reverse

/-- JS `String.prototype.trim` (strip whitespace at both ends). -/
def jsTrim (cs : List Char) : List Char :=
  trimR (trimL cs)

/-- importer.js `clean`: `String(str || "").replace(/\s+/g, " ").trim()`. -/
def cleanS (s : String) : String :=
  ⟨jsTrim (collapseWS s.data)⟩

/-- `jsTrim` on a `String` (used for chapter bodies). -/
def jsTrimS (s : String) : String :=
  ⟨jsTrim s.data⟩

/-- JS `s.split(sep)` for a single-character separator (used with `"\n"` for
soft line breaks and with `"."` for filename extensions). -/
def splitOnChar (sep : Char) : List Char → List (List Char)
  | [] => [[]]
  | c :: rest =>
    if c = sep then [] :: splitOnChar sep rest
    else
      match splitOnChar sep rest with
      | [] => [[c]]
      | w :: ws => (c :: w) :: ws

/-- JS `s.split(/\n{2,}/)`: `acc` is the current block in reverse, `nl` the
number of pending newline characters not yet committed.  A pending run of two
or more newlines is a block separator; a single pending newline is content. -/
def sbGo : List Char → List Char → Nat → List (List Char)
  | [], acc, nl =>
    if 2 ≤ nl then [acc.reverse, []] else [acc.reverse ++ List.replicate nl '\n']
  | c :: rest, acc, nl =>
    if c = '\n' then sbGo rest acc (nl + 1)
    else if 2 ≤ nl then acc.reverse :: sbGo rest [c] 0
    else sbGo rest (c :: List.replicate nl '\n' ++ acc) 0

/-- JS `s.split(/\n{2,}/)` (blank-line boundaries). -/
def splitBlocks (cs : List Char) : List (List Char) :=
  sbGo cs [] 0

/-- JS `s.replace(/\n{3,}/g, "\n\n")`: `nl` counts pending newlines; a run of
three or more is emitted as exactly two. -/
def cnGo : List Char → Nat → List Char
  | [], nl => List.replicate (min nl 2) '\n'
  | c :: rest, nl =>
    if c = '\n' then cnGo rest (nl + 1)
    else List.replicate (min nl 2) '\n' ++ c :: cnGo rest 0

/-- JS `s.replace(/\n{3,}/g, "\n\n")`. -/
def collapseNL (cs : List Char) : List Char :=
  cnGo cs 0

/-- `String(text).replace(/\r\n/g, "\n").replace(/\r/g, "\n")` of `textToDoc`
(the two replacements fused into one left-to-right scan, which is equivalent
because the first replacement leaves no `\r\n` pair behind). -/
def normNL : List Char → List Char
  | [] => []
  | [c] => if c = '\r' then ['\n'] else [c]
  | c :: d :: rest =>
    if c = '\r' then
      if d = '\n' then '\n' :: normNL rest else '\n' :: normNL (d :: rest)
    else c :: normNL (d :: rest)

/-- ECMAScript word character (`\w` / the `\b` boundary class): ASCII letters,
digits and underscore. -/
def isWordCh (c : Char) : Bool :=
  ('a' ≤ c && c ≤ 'z') || ('A' ≤ c && c ≤ 'Z') || ('0' ≤ c && c ≤ '9') || c = '_'

/-- ASCII digit. -/
def isDigitC (c : Char) : Bool :=
  '0' ≤ c && c ≤ '9'

/-- Lowercase roman-numeral letter as restricted by `CHAPTER_RE` / `PART_RE`
(`[ivxlcdm]`). -/
def isRomanC (c : Char) : Bool :=
  c = 'i' || c = 'v' || c = 'x' || c = 'l' || c = 'c' || c = 'd' || c = 'm'

/-- The `\b` word-boundary assertion placed after a word character: it holds
iff the rest of the input does not continue with a word character. -/
def boundaryOK : List Char → Bool
  | [] => true
  | c :: _ => !isWordCh c

/-- A `class+\b` regex fragment: a non-empty maximal run of `p`-characters
followed by a word boundary.  (Backtracking the greedy run cannot help: a
shorter run ends between two `p`-characters, which are word characters.) -/
def runThenBoundary (p : Char → Bool) (cs : List Char) : Bool :=
  !(cs.takeWhile p).isEmpty && boundaryOK (cs.dropWhile p)

/-- A `word\b` regex fragment: the literal `w` as a prefix, then a boundary. -/
def wordThenBoundary (w : List Char) (cs : List Char) : Bool :=
  w.isPrefixOf cs && boundaryOK (cs.drop w.length)

/-- The number-token alternation of `CHAPTER_RE` / `PART_RE`:
`([0-9]+|[ivxlcdm]+|word1|...)\b` on lowercased input. -/
def numToken (words : List String) (cs : List Char) : Bool :=
  runThenBoundary isDigitC cs || runThenBoundary isRomanC cs ||
  words.any (fun w => wordThenBoundary w.data cs)

/-- The `\s+` then number-token tail of `CHAPTER_RE` / `PART_RE` after the
keyword.  (The trailing `[\s:\-–—]*` of the source regexes always matches the
empty string and is irrelevant to `.test`.) -/
def spacedNumToken (words : List String) : List Char → Bool
  | [] => false
  | c :: rest => isWS c && numToken words (rest.dropWhile isWS)

/-- The spelled-out number words of `CHAPTER_RE` (`one` through `twelve`). -/
def chapterWords : List String :=
  ["one", "two", "three", "four", "five", "six", "seven", "eight", "nine",
   "ten", "eleven", "twelve"]

/-- The spelled-out number words of `PART_RE` (`one` through `ten`). -/
def partWords : List String :=
  ["one", "two", "three", "four", "five", "six", "seven", "eight", "nine",
   "ten"]

/-- The front matter and back matter keywords of `FRONT_RE`. -/
def frontWords : List String :=
  ["prologue", "epilogue", "preface", "foreword", "afterword"]

/-- `CHAPTER_RE.test` on an already lowercased subject:
`^(chapter|chap\.?)\s+([0-9]+|[ivxlcdm]+|one|...|twelve)\b[\s:\-–—]*` with
the `i` flag. -/
def chapterMatchL (l : List Char) : Bool :=
  ("chapter".data.isPrefixOf l && spacedNumToken chapterWords (l.drop 7)) ||
  ("chap.".data.isPrefixOf l && spacedNumToken chapterWords (l.drop 5)) ||
  ("chap".data.isPrefixOf l && spacedNumToken chapterWords (l.drop 4))

/-- `PART_RE.test` on an already lowercased subject:
`^(part)\s+([0-9]+|[ivxlcdm]+|one|...|ten)\b[\s:\-–—]*` with the `i` flag. -/
def partMatchL (l : List Char) : Bool :=
  "part".data.isPrefixOf l && spacedNumToken partWords (l.drop 4)

/-- `FRONT_RE.test` on an already lowercased subject:
`^(prologue|epilogue|preface|foreword|afterword)\b[\s:\-–—]*` with `i`. -/
def frontMatchL (l : List Char) : Bool :=
  frontWords.any (fun w => wordThenBoundary w.data l)

/-- `CHAPTER_RE.test(s)` (the `/i` flag realised by lowercasing the subject;
the pattern letters are all lowercase ASCII). -/
def chapterTest (s : String) : Bool :=
  chapterMatchL (s.data.map jsLower)

/-- `PART_RE.test(s)`. -/
def partTest (s : String) : Bool :=
  partMatchL (s.data.map jsLower)

/-- `FRONT_RE.test(s)`. -/
def frontTest (s : String) : Bool :=
  frontMatchL (s.data.map jsLower)

/-- Head-of-list digit membership (the `([12])` / `1` tail of the style
regexes). -/
def headDigitOK (digits : List Char) : List Char → Bool
  | [] => false
  | c :: _ => digits.contains c

/-- One candidate position of `/heading\s*([12])/`: the literal `heading`,
optional whitespace, then `1` or `2`. -/
def headingDigitAt (digits : List Char) (cs : List Char) : Bool :=
  "heading".data.isPrefixOf cs && headDigitOK digits ((cs.drop 7).dropWhile isWS)

/-- `/heading\s*([12])/.test(s)` — an unanchored search, so every position of
the (already lowercased) style string is tried. -/
def headingStyleRe : List Char → Bool
  | [] => false
  | c :: rest => headingDigitAt ['1', '2'] (c :: rest) || headingStyleRe rest

/-- `/heading\s*1/.test(s)` — the variant used by the title extraction. -/
def heading1Re : List Char → Bool
  | [] => false
  | c :: rest => headingDigitAt ['1'] (c :: rest) || heading1Re rest

/-- importer.js `isAllCapsShort`: non-empty after `clean`, at most 44
characters, at least 6 uppercase ASCII letters, and fixed by `toUpperCase`. -/
def isAllCapsShort (s : String) : Bool :=
  let t := cleanS s
  if t.data.isEmpty then false
  else if 44 < t.length then false
  else
    6 ≤ (t.data.filter (fun c => 'A' ≤ c && c ≤ 'Z')).length &&
      t.data = jsUpperStr t.data

/-- importer.js `isHeadingLike(text, style)`. -/
def isHeadingLike (text : String) (style : String) : Bool :=
  let t := cleanS text
  if t.data.isEmpty then false
  else
    let s := style.data.map jsLower
    let isStyleHeading := headingStyleRe s || s = "title".data
    isStyleHeading || chapterTest t || partTest t || frontTest t ||
      isAllCapsShort t

/-- The Tiptap JSON node trees handled by the pipeline: a `text` node carries
its `text` field (its `content` is always empty and ignored by every
consumer); every other node carries its `type` discriminator and its
`content` array. -/
inductive JNode where
  | text (s : String)
  | node (ty : String) (children : List JNode)

/-- The inline content produced by `paragraphToTiptap` from the list of
soft-break lines of one paragraph block: a `text` node for each non-empty
line, a `hardBreak` node after every line but the last. -/
def tiptapLines : List (List Char) → List JNode
  | [] => []
  | [t] => if t.isEmpty then [] else [JNode.text ⟨t⟩]
  | t :: rest =>
    (if t.isEmpty then [] else [JNode.text ⟨t⟩]) ++
      (JNode.node "hardBreak" [] :: tiptapLines rest)

/-- importer.js `paragraphToTiptap`: split a block on `"\n"`, emit text runs
and hard breaks, and fall back to a single empty text run. -/
def paragraphToTiptap (par : List Char) : JNode :=
  let content := tiptapLines (splitOnChar '\n' par)
  JNode.node "paragraph" (if content.isEmpty then [JNode.text ""] else content)

/-- importer.js `textToDoc`: normalise line endings, split on blank-line
boundaries, trim each block and drop empty ones, and compile each block into
a paragraph node (one empty paragraph if nothing remains). -/
def textToDoc (text : String) : JNode :=
  let raw := normNL text.data
  let blocks := ((splitBlocks raw).map jsTrim).filter (fun b => !b.isEmpty)
  JNode.node "doc"
    (if blocks.isEmpty then [JNode.node "paragraph" []]
     else blocks.map paragraphToTiptap)

mutual
/-- The recursive walk of editor.js `editorToPlainText`: a text node yields
its text (children ignored); a paragraph or hard break contributes a line
break before its children; a heading, blockquote or list item contributes a
line break after its children. -/
def walkOut : JNode → List Char
  | JNode.text s => s.data
  | JNode.node ty children =>
    (if ty = "paragraph" then ['\n'] else []) ++
    (if ty = "hardBreak" then ['\n'] else []) ++
    walkList children ++
    (if ty = "heading" || ty = "blockquote" then ['\n'] else []) ++
    (if ty = "listItem" then ['\n'] else [])

/-- The walk of `editorToPlainText` over a `content` array. -/
def walkList : List JNode → List Char
  | [] => []
  | n :: ns => walkOut n ++ walkList ns
end

/-- editor.js `editorToPlainText`: walk the node tree, then collapse runs of
three or more line breaks to two and trim the ends. -/
def editorToPlainText (jsonDoc : JNode) : String :=
  ⟨jsTrim (collapseNL (walkOut jsonDoc))⟩

/-- A decoded paragraph record `{ text, style }` as consumed by
`splitFromParagraphs` (the spec's RawParagraph). -/
structure Para where
  text : String
  style : String
deriving DecidableEq

/-- A finished chapter `{ title, doc }`. -/
structure Chapter where
  title : String
  doc : JNode

/-- The result `{ novelTitle, chapters }` of `splitFromParagraphs`. -/
structure ImportResult where
  novelTitle : String
  chapters : List Chapter

/-- The in-progress chapter draft `{ title, body }` of the segmentation
loop. -/
structure Draft where
  title : String
  body : List String

/-- The paragraph filter of `splitFromParagraphs`:
`.filter(p => clean(p.text).length)` (drop paragraphs whose cleaned text is
empty).  The preceding `.map` normalising `p.text` / `p.style` to strings is
the identity here because `Para` is already typed. -/
def filterParas (ps : List Para) : List Para :=
  ps.filter (fun p => !(cleanS p.text).data.isEmpty)

/-- The title-detection condition of `splitFromParagraphs`: cleaned text
non-empty, at most 80 characters, not chapter/part/front-matter-like, and a
`Title` or `Heading 1` style hint. -/
def titleCond (p : Para) : Bool :=
  let t := cleanS p.text
  !t.data.isEmpty && t.length ≤ 80 &&
  !chapterTest t && !partTest t && !frontTest t &&
  (p.style.data.map jsLower = "title".data ||
    heading1Re (p.style.data.map jsLower))

/-- The title-extraction step of `splitFromParagraphs`: consume the first
paragraph as the novel title when `titleCond` holds (also dropping an
immediately following run of blank paragraphs), otherwise keep the fallback
title and leave the stream unchanged. -/
def extractTitle (paras : List Para) (fb : String) : String × List Para :=
  match paras with
  | [] => (fb, [])
  | first :: rest =>
    if titleCond first then
      (cleanS first.text,
       rest.dropWhile (fun p => (cleanS p.text).data.isEmpty))
    else (fb, first :: rest)

/-- `/[.!?]$/.test(s)`: the last character is `.`, `!` or `?`. -/
def endsPunct (s : String) : Bool :=
  match s.data.getLast? with
  | some c => c = '.' || c = '!' || c = '?'
  | none => false

/-- The `pushCurrent` closure of `splitFromParagraphs`: commit the open draft
(if any) at the end of the committed chapter list; the body paragraphs are
joined with blank lines and trimmed, the title falls back to
`Chapter <n+1>` when it cleans to the empty string. -/
def pushCurrent (chapters : List Chapter) : Option Draft → List Chapter
  | none => chapters
  | some d =>
    let body := jsTrimS (⟨joinSep "\n\n".data (d.body.map String.data)⟩)
    chapters ++
      [⟨(if (cleanS d.title).data.isEmpty then
           "Chapter " ++ toString (chapters.length + 1)
         else cleanS d.title),
        textToDoc body⟩]

/-- One iteration of the main loop of `splitFromParagraphs` over the state
`(chapters, current)`. -/
def segStep (st : List Chapter × Option Draft) (p : Para) :
    List Chapter × Option Draft :=
  let chapters := st.1
  if isHeadingLike p.text p.style then
    (pushCurrent chapters st.2, some ⟨p.text, []⟩)
  else
    let cur : Draft :=
      match st.2 with
      | some d => d
      | none => ⟨"Chapter " ++ toString (chapters.length + 1), []⟩
    let curT := cleanS cur.title
    let nextT := cleanS p.text
    if cur.body.isEmpty && !nextT.data.isEmpty && nextT.length ≤ 60 &&
        !endsPunct nextT &&
        (chapterTest curT || partTest curT || frontTest curT) then
      (chapters, some ⟨curT ++ ": " ++ nextT, cur.body⟩)
    else
      (chapters, some ⟨cur.title, cur.body ++ [p.text]⟩)

/-- The main loop of `splitFromParagraphs`. -/
def segLoop (paras : List Para) (st : List Chapter × Option Draft) :
    List Chapter × Option Draft :=
  paras.foldl segStep st

/-- The final clean-up map of `splitFromParagraphs`: re-clean every title
with the positional `Chapter <i+1>` fallback.  (The `c.doc || emptyDoc`
default of the source is vacuous here: a typed `Chapter` always has a
document.) -/
def finalize (i : Nat) : List Chapter → List Chapter
  | [] => []
  | c :: rest =>
    ⟨(if (cleanS c.title).data.isEmpty then "Chapter " ++ toString (i + 1)
      else cleanS c.title), c.doc⟩ :: finalize (i + 1) rest

/-- importer.js `splitFromParagraphs(paragraphs, fallbackTitle)`. -/
def splitFromParagraphs (paragraphs : List Para) (fallbackTitle : String) :
    ImportResult :=
  let paras0 := filterParas paragraphs
  let fb := if fallbackTitle.data.isEmpty then "Untitled Novel"
            else fallbackTitle
  let et := extractTitle paras0 fb
  let st := segLoop et.2 ([], none)
  let chaps := pushCurrent st.1 st.2
  let chaps :=
    if chaps.isEmpty then
      [⟨"Chapter 1", textToDoc ⟨joinSep "\n\n".data (et.2.map (fun p => p.text.data))⟩⟩]
    else chaps
  ⟨et.1, finalize 0 chaps⟩

/-- Substring occurrence at any position of a character list. -/
def hasSubstr (sub : List Char) : List Char → Bool
  | [] => sub.isEmpty
  | c :: rest => sub.isPrefixOf (c :: rest) || hasSubstr sub rest

/-- JS `String.prototype.includes` (`file.type.includes(...)`). -/
def containsSub (s sub : String) : Bool :=
  hasSubstr sub.data s.data

/-- `(name.split(".").pop() || "").toLowerCase()` of `parseImportFile`:
the last `.`-separated component of the file name, lowercased.  (`split`
always yields at least one component, so the `|| ""` default is vacuous.) -/
def extOf (name : String) : String :=
  ⟨((splitOnChar '.' name.data).getLastD []).map jsLower⟩

/-- The effective file name of `parseImportFile`: `file.name || "Imported"`. -/
def effName (name : String) : String :=
  if name.data.isEmpty then "Imported" else name

/-- The two format decoders `parseImportFile` can dispatch to. -/
inductive Decoder where
  | rtf
  | docx
deriving DecidableEq

/-- The format-routing decision of importer.js `parseImportFile`, taken from
the file name and declared media type before any decoding work: RTF when the
extension is `rtf` or the media type mentions `rtf`; otherwise DOCX when the
extension is `docx` or the media type mentions `officedocument`; otherwise an
immediate error (`throw` in the source — no decoder ever runs and no partial
result exists).  The decoding itself is I/O and is outside this embedding. -/
def parseImportFileRoute (name ftype : String) : Except String Decoder :=
  let ext := extOf (effName name)
  if ext = "rtf" || containsSub ftype "rtf" then Except.ok Decoder.rtf
  else if ext = "docx" || containsSub ftype "officedocument" then
    Except.ok Decoder.docx
  else Except.error "Unsupported file type. Please use .docx or .rtf"

/-- The chapter-heading shape as the specification words it (for claim C6):
the normalized text, case-insensitively, begins with `chapter` or `chap.`
followed by whitespace and a number token (digits, roman numeral over
i,v,x,l,c,d,m, or a spelled-out word one through twelve) at a word boundary.
Unlike the source regex, the bare keyword `chap` (without the period) is not
included: the claim lists only `chapter` and `chap.`. -/
def chapterShapeSpec (cs : List Char) : Bool :=
  let l := cs.map jsLower
  ("chapter".data.isPrefixOf l && spacedNumToken chapterWords (l.drop 7)) ||
  ("chap.".data.isPrefixOf l && spacedNumToken chapterWords (l.drop 5))

/-! ## Whitespace and word-structure lemmas -/

theorem wordsAux_nil (acc : List Char) : wordsAux [] acc = flushAcc acc := rfl

theorem wordsAux_cons_ws {c : Char} (h : isWS c = true) (rest acc) :
    wordsAux (c :: rest) acc = flushAcc acc ++ wordsAux rest [] := by
  simp [wordsAux, h]

theorem wordsAux_cons_word {c : Char} (h : isWS c = false) (rest acc) :
    wordsAux (c :: rest) acc = wordsAux rest (c :: acc) := by
  simp [wordsAux, h]

/-- A single whitespace character splits the word structure of a list. -/
theorem wordsAux_append_ws {w : Char} (hw : isWS w = true) :
    ∀ (a : List Char) (acc b : List Char),
      wordsAux (a ++ w :: b) acc = wordsAux a acc ++ wordsAux b []
  | [], acc, b => by simp [wordsAux_cons_ws hw, wordsAux_nil]
  | d :: a, acc, b => by
    cases hd : isWS d with
    | true =>
      rw [List.cons_append, wordsAux_cons_ws hd, wordsAux_cons_ws hd,
        wordsAux_append_ws hw a [] b, List.append_assoc]
    | false =>
      rw [List.cons_append, wordsAux_cons_word hd, wordsAux_cons_word hd,
        wordsAux_append_ws hw a (d :: acc) b]

theorem wordsAux_allWS :
    ∀ {t : List Char}, (∀ c ∈ t, isWS c = true) → ∀ acc,
      wordsAux t acc = flushAcc acc
  | [], _, _ => rfl
  | c :: rest, h, acc => by
    rw [wordsAux_cons_ws (h c (by simp)) rest acc]
    have hrest : wordsAux rest [] = flushAcc [] :=
      wordsAux_allWS (fun c hc => h c (by simp [hc])) []
    simp [hrest, flushAcc]

theorem wordsAux_leading_ws :
    ∀ {t : List Char}, (∀ c ∈ t, isWS c = true) → ∀ (y : List Char),
      wordsAux (t ++ y) [] = wordsAux y []
  | [], _, _ => rfl
  | c :: rest, h, y => by
    rw [List.cons_append, wordsAux_cons_ws (h c (by simp))]
    have hrec := wordsAux_leading_ws (t := rest)
      (fun d hd => h d (List.mem_cons_of_mem _ hd)) y
    simp [flushAcc, hrec]

theorem wordsAux_append_allWS {t : List Char} (h : ∀ c ∈ t, isWS c = true) :
    ∀ (x : List Char) (acc), wordsAux (x ++ t) acc = wordsAux x acc
  | [], acc => by rw [List.nil_append, wordsAux_allWS h, wordsAux_nil]
  | d :: x, acc => by
    cases hd : isWS d with
    | true =>
      rw [List.cons_append, wordsAux_cons_ws hd, wordsAux_cons_ws hd,
        wordsAux_append_allWS h x []]
    | false =>
      rw [List.cons_append, wordsAux_cons_word hd, wordsAux_cons_word hd,
        wordsAux_append_allWS h x (d :: acc)]

theorem wordsAux_dropWhile (t : List Char) :
    wordsAux (t.dropWhile isWS) [] = wordsAux t [] := by
  conv_rhs => rw [← List.takeWhile_append_dropWhile (p := isWS) (l := t)]
  exact (wordsAux_leading_ws (fun c hc => List.mem_takeWhile_imp hc) _).symm

/-- Consuming a run of non-whitespace characters just extends the pending
word accumulator. -/
theorem wordsAux_word_run :
    ∀ {w : List Char}, (∀ c ∈ w, isWS c = false) →
      ∀ (rest acc : List Char),
        wordsAux (w ++ rest) acc = wordsAux rest (w.reverse ++ acc)
  | [], _, rest, acc => by simp
  | d :: w, h, rest, acc => by
    rw [List.cons_append, wordsAux_cons_word (h d (by simp)),
      wordsAux_word_run (fun c hc => h c (by simp [hc])) rest (d :: acc)]
    simp

theorem wordsAux_ne_nil {acc : List Char} (h : acc ≠ []) :
    ∀ t, wordsAux t acc ≠ []
  | [] => by simp [wordsAux_nil, flushAcc, h]
  | c :: rest => by
    cases hc : isWS c with
    | true =>
      rw [wordsAux_cons_ws hc]
      simp [flushAcc, h]
    | false =>
      rw [wordsAux_cons_word hc]
      exact wordsAux_ne_nil (by simp) rest

theorem dropWhile_all_false {p : Char → Bool} :
    ∀ {l : List Char}, (∀ c ∈ l, p c = false) → l.dropWhile p = l
  | [], _ => rfl
  | c :: rest, h => by
    rw [List.dropWhile_cons, h c (by simp)]
    simp

theorem length_dropWhile_le' (p : Char → Bool) (l : List Char) :
    (l.dropWhile p).length ≤ l.length :=
  (List.dropWhile_sublist _).length_le

/-- Trailing-trim slides over a run of non-whitespace characters. -/
theorem trimR_append_word {w : List Char} (h : ∀ c ∈ w, isWS c = false)
    (x : List Char) : trimR (w ++ x) = w ++ trimR x := by
  show ((w ++ x).reverse.dropWhile isWS).reverse =
    w ++ (x.reverse.dropWhile isWS).reverse
  rw [List.reverse_append, List.dropWhile_append]
  cases he : (x.reverse.dropWhile isWS).isEmpty with
  | true =>
    rw [if_pos rfl, List.isEmpty_iff.mp he,
      dropWhile_all_false (fun c hc => h c (List.mem_reverse.mp hc)),
      List.reverse_reverse, List.reverse_nil, List.append_nil]
  | false =>
    rw [if_neg (by simp [he]), List.reverse_append, List.reverse_reverse]

theorem trimR_word_only {w : List Char} (h : ∀ c ∈ w, isWS c = false) :
    trimR w = w := by
  have h2 := trimR_append_word h []
  rw [List.append_nil, show trimR [] = ([] : List Char) from rfl,
    List.append_nil] at h2
  exact h2

theorem trimR_cons_of_ne {z : List Char} (h : trimR z ≠ []) (a : Char) :
    trimR (a :: z) = a :: trimR z := by
  have hz : (z.reverse.dropWhile isWS).isEmpty = false := by
    cases he : (z.reverse.dropWhile isWS).isEmpty with
    | true => exact absurd (by simp [trimR, List.isEmpty_iff.mp he]) h
    | false => rfl
  show ((a :: z).reverse.dropWhile isWS).reverse = a :: (z.reverse.dropWhile isWS).reverse
  rw [List.reverse_cons, List.dropWhile_append, if_neg (by simp [hz]),
    List.reverse_append]
  rfl

theorem jsTrim_cons_ws {c : Char} (h : isWS c = true) (x : List Char) :
    jsTrim (c :: x) = jsTrim x := by
  simp [jsTrim, trimL, List.dropWhile_cons, h]

theorem jsTrim_word_head {c : Char} (h : isWS c = false) (x : List Char) :
    jsTrim (c :: x) = trimR (c :: x) := by
  simp [jsTrim, trimL, List.dropWhile_cons, h]

theorem jsTrim_word_only {w : List Char} (h : ∀ c ∈ w, isWS c = false) :
    jsTrim w = w := by
  rw [jsTrim, trimL, dropWhile_all_false h, trimR_word_only h]

theorem jsTrim_word_space {w : List Char} (h : ∀ c ∈ w, isWS c = false) :
    jsTrim (w ++ [' ']) = w := by
  cases w with
  | nil => rfl
  | cons a w' =>
    rw [List.cons_append, jsTrim_word_head (h a (by simp)),
      ← List.cons_append, trimR_append_word h,
      show trimR [' '] = ([] : List Char) from rfl, List.append_nil]

theorem wordsOf_trimL (x : List Char) : wordsOf (trimL x) = wordsOf x :=
  wordsAux_dropWhile x

theorem wordsOf_trimR (x : List Char) : wordsOf (trimR x) = wordsOf x := by
  have hx : x = trimR x ++ (x.reverse.takeWhile isWS).reverse := by
    conv_lhs =>
      rw [← List.reverse_reverse x,
        ← List.takeWhile_append_dropWhile (p := isWS) (l := x.reverse)]
    rw [List.reverse_append]
    rfl
  conv_rhs => rw [hx]
  exact (wordsAux_append_allWS
    (fun c hc => List.mem_takeWhile_imp (List.mem_reverse.mp hc)) _ _).symm

theorem wordsOf_jsTrim (x : List Char) : wordsOf (jsTrim x) = wordsOf x := by
  rw [jsTrim, wordsOf_trimR, wordsOf_trimL]

/-- After a whitespace character has been emitted, `cwGo` skips the rest of
the whitespace run. -/
theorem cwGo_true_eq : ∀ cs : List Char,
    cwGo true cs = cwGo false (cs.dropWhile isWS)
  | [] => rfl
  | c :: rest => by
    cases hc : isWS c with
    | true => simp [cwGo, hc, List.dropWhile_cons, cwGo_true_eq rest]
    | false => simp [cwGo, hc, List.dropWhile_cons]

theorem joinSep_cons_cons (sep x y : List Char) (zs : List (List Char)) :
    joinSep sep (x :: y :: zs) = x ++ sep ++ joinSep sep (y :: zs) := rfl

theorem joinSep_flushAcc_rev (w : List Char) :
    joinSep [' '] (flushAcc w.reverse) = w := by
  cases w with
  | nil => rfl
  | cons a w' =>
    have : ((a :: w').reverse).isEmpty = false := by simp
    simp [flushAcc, this, joinSep]

/-- The heart of the `clean` characterisation: running the whitespace
collapse after an already-copied run `w` of non-whitespace characters and
trimming produces the space-joined word decomposition. -/
theorem cleanWordsGen :
    ∀ (n : Nat) (cs : List Char), cs.length ≤ n →
      ∀ w : List Char, (∀ c ∈ w, isWS c = false) →
        jsTrim (w ++ cwGo false cs) = joinSep [' '] (wordsAux cs w.reverse)
  | _, [], _, w, hw => by
    rw [show cwGo false ([] : List Char) = [] from rfl, List.append_nil,
      jsTrim_word_only hw, wordsAux_nil, joinSep_flushAcc_rev]
  | 0, c :: rest, h, _, _ => by simp at h
  | n + 1, c :: rest, h, w, hw => by
    have hlen : rest.length ≤ n := by
      simp only [List.length_cons] at h
      omega
    cases hc : isWS c with
    | false =>
      rw [show cwGo false (c :: rest) = c :: cwGo false rest by
          simp [cwGo, hc],
        wordsAux_cons_word hc]
      have hw2 : ∀ d ∈ w ++ [c], isWS d = false := by
        intro d hd
        rcases List.mem_append.mp hd with h1 | h1
        · exact hw d h1
        · rw [List.mem_singleton.mp h1]
          exact hc
      have h2 := cleanWordsGen n rest hlen (w ++ [c]) hw2
      rw [List.append_assoc, List.reverse_append] at h2
      simpa using h2
    | true =>
      have hstep : cwGo false (c :: rest) =
          ' ' :: cwGo false (rest.dropWhile isWS) := by
        simp [cwGo, hc, cwGo_true_eq]
      have hslen : (rest.dropWhile isWS).length ≤ n :=
        le_trans (length_dropWhile_le' isWS rest) hlen
      rw [hstep, wordsAux_cons_ws hc, ← wordsAux_dropWhile rest]
      cases hsc : rest.dropWhile isWS with
      | nil =>
        rw [show cwGo false ([] : List Char) = [] from rfl,
          show wordsAux ([] : List Char) [] = [] from rfl,
          List.append_nil, jsTrim_word_space hw, joinSep_flushAcc_rev]
      | cons e s' =>
        have hslen2 : (e :: s').length ≤ n := hsc ▸ hslen
        have he : isWS e = false := by
          have h3 := List.head_dropWhile_not isWS rest (by simp [hsc])
          simpa [hsc] using h3
        have hwne : wordsAux (e :: s') [] ≠ [] := by
          rw [wordsAux_cons_word he]
          exact wordsAux_ne_nil (by simp) s'
        have hIH := cleanWordsGen n (e :: s') hslen2 [] (by simp)
        rw [List.nil_append] at hIH
        have hcw : cwGo false (e :: s') = e :: cwGo false s' := by
          simp [cwGo, he]
        cases w with
        | nil =>
          rw [List.nil_append, jsTrim_cons_ws (show isWS ' ' = true from rfl),
            hIH]
          simp [flushAcc]
        | cons a w' =>
          rw [List.cons_append, jsTrim_word_head (hw a (by simp)),
            ← List.cons_append, trimR_append_word hw]
          have htrne : trimR (cwGo false (e :: s')) ≠ [] := by
            rw [hcw, show e :: cwGo false s' = [e] ++ cwGo false s' from rfl,
              trimR_append_word (by simp [he])]
            simp
          rw [trimR_cons_of_ne htrne,
            show trimR (cwGo false (e :: s')) = jsTrim (cwGo false (e :: s'))
              by rw [hcw]; exact (jsTrim_word_head he _).symm,
            hIH,
            show flushAcc ((a :: w').reverse) = [a :: w'] by simp [flushAcc]]
          obtain ⟨t, ts, hts⟩ :
              ∃ t ts, wordsAux (e :: s') [] = t :: ts := by
            cases hq : wordsAux (e :: s') [] with
            | nil => exact absurd hq hwne
            | cons t ts => exact ⟨t, ts, rfl⟩
          rw [show wordsAux (e :: s') ([] : List Char).reverse
              = wordsAux (e :: s') [] from rfl, hts,
            show ([a :: w'] : List (List Char)) ++ t :: ts =
              (a :: w') :: t :: ts from rfl,
            joinSep_cons_cons]
          simp

/-- importer.js `clean` joins the maximal non-whitespace runs of its input
with single spaces. -/
theorem clean_eq_words (s : String) :
    cleanS s = ⟨joinSep [' '] (wordsOf s.data)⟩ := by
  have := cleanWordsGen s.data.length s.data le_rfl [] (by simp)
  rw [List.nil_append] at this
  show (⟨jsTrim (cwGo false s.data)⟩ : String) = _
  rw [this]
  rfl

theorem replicate_nl_allWS (k : Nat) :
    ∀ c ∈ List.replicate k '\n', isWS c = true := by
  intro c hc
  rw [List.eq_of_mem_replicate hc]
  rfl

/-- A non-empty newline run at the head flushes the accumulator and
separates the word structure. -/
theorem wordsAux_nl_run {k : Nat} (hk : 1 ≤ k) (y acc : List Char) :
    wordsAux (List.replicate k '\n' ++ y) acc = flushAcc acc ++ wordsAux y [] := by
  cases k with
  | zero => omega
  | succ k' =>
    rw [List.replicate_succ, List.cons_append,
      wordsAux_cons_ws (show isWS '\n' = true from rfl),
      wordsAux_leading_ws (replicate_nl_allWS k') y]

/-- `replace(/\n{3,}/g, "\n\n")` does not change the word structure. -/
theorem wordsAux_cnGo :
    ∀ (cs : List Char) (nl : Nat) (acc : List Char),
      wordsAux (cnGo cs nl) acc = wordsAux (List.replicate nl '\n' ++ cs) acc
  | [], nl, acc => by
    rw [cnGo, List.append_nil, wordsAux_allWS (replicate_nl_allWS nl),
      wordsAux_allWS (replicate_nl_allWS (min nl 2))]
  | c :: rest, nl, acc => by
    by_cases hc : c = '\n'
    · subst hc
      rw [show cnGo ('\n' :: rest) nl = cnGo rest (nl + 1) by simp [cnGo],
        wordsAux_cnGo rest (nl + 1) acc, List.replicate_succ',
        List.append_assoc, List.singleton_append]
    · rw [show cnGo (c :: rest) nl =
          List.replicate (min nl 2) '\n' ++ c :: cnGo rest 0 by
          simp [cnGo, hc]]
      cases nl with
      | zero =>
        simp only [Nat.zero_min, List.replicate_zero, List.nil_append]
        cases hws : isWS c with
        | true =>
          rw [wordsAux_cons_ws hws, wordsAux_cons_ws hws,
            wordsAux_cnGo rest 0 []]
          rfl
        | false =>
          rw [wordsAux_cons_word hws, wordsAux_cons_word hws,
            wordsAux_cnGo rest 0 (c :: acc)]
          rfl
      | succ nl' =>
        have h1 : 1 ≤ min (nl' + 1) 2 := by omega
        rw [wordsAux_nl_run h1, wordsAux_nl_run (by omega)]
        cases hws : isWS c with
        | true =>
          rw [wordsAux_cons_ws hws, wordsAux_cons_ws hws,
            wordsAux_cnGo rest 0 []]
          rfl
        | false =>
          rw [wordsAux_cons_word hws, wordsAux_cons_word hws,
            wordsAux_cnGo rest 0 [c]]
          rfl

/-- CR/LF normalisation does not change the word structure (all the
characters involved are whitespace). -/
theorem wordsAux_normNL :
    ∀ (cs : List Char) (acc : List Char),
      wordsAux (normNL cs) acc = wordsAux cs acc
  | [], _ => rfl
  | [c], acc => by
    by_cases hc : c = '\r'
    · subst hc
      rw [show normNL ['\r'] = ['\n'] by simp [normNL]]
      rw [wordsAux_cons_ws (show isWS '\n' = true from rfl),
        wordsAux_cons_ws (show isWS '\r' = true from rfl)]
    · rw [show normNL [c] = [c] by simp [normNL, hc]]
  | c :: d :: rest, acc => by
    by_cases hc : c = '\r'
    · subst hc
      by_cases hd : d = '\n'
      · subst hd
        rw [show normNL ('\r' :: '\n' :: rest) = '\n' :: normNL rest by
            simp [normNL],
          wordsAux_cons_ws (show isWS '\n' = true from rfl),
          wordsAux_cons_ws (show isWS '\r' = true from rfl),
          wordsAux_cons_ws (show isWS '\n' = true from rfl),
          wordsAux_normNL rest []]
        simp [flushAcc]
      · rw [show normNL ('\r' :: d :: rest) = '\n' :: normNL (d :: rest) by
            simp [normNL, hd],
          wordsAux_cons_ws (show isWS '\n' = true from rfl),
          wordsAux_cons_ws (show isWS '\r' = true from rfl),
          wordsAux_normNL (d :: rest) []]
    · rw [show normNL (c :: d :: rest) = c :: normNL (d :: rest) by
          simp [normNL, hc]]
      cases hws : isWS c with
      | true =>
        rw [wordsAux_cons_ws hws, wordsAux_cons_ws hws,
          wordsAux_normNL (d :: rest) []]
      | false =>
        rw [wordsAux_cons_word hws, wordsAux_cons_word hws,
          wordsAux_normNL (d :: rest) (c :: acc)]

/-- A newline run in the middle splits the word structure. -/
theorem wordsAux_mid_nl_run {k : Nat} (hk : 1 ≤ k) (x y acc : List Char) :
    wordsAux (x ++ (List.replicate k '\n' ++ y)) acc =
      wordsAux x acc ++ wordsAux y [] := by
  cases k with
  | zero => omega
  | succ k' =>
    rw [List.replicate_succ, List.cons_append,
      wordsAux_append_ws (show isWS '\n' = true from rfl) x acc,
      wordsAux_leading_ws (replicate_nl_allWS k') y]

/-- The word structure of the input is the concatenation of the word
structures of its `split(/\n{2,}/)` blocks. -/
theorem sbGo_words :
    ∀ (cs : List Char) (acc : List Char) (nl : Nat),
      ((sbGo cs acc nl).map wordsOf).flatten =
        wordsOf (acc.reverse ++ (List.replicate nl '\n' ++ cs))
  | [], acc, nl => by
    rw [sbGo]
    by_cases h2 : 2 ≤ nl
    · rw [if_pos h2]
      show wordsOf acc.reverse ++ ([] ++ []) = _
      conv_rhs => rw [List.append_nil]
      simp only [List.append_nil]
      exact (wordsAux_append_allWS (replicate_nl_allWS nl) acc.reverse []).symm
    · rw [if_neg h2]
      show wordsOf (acc.reverse ++ List.replicate nl '\n') ++ [] = _
      conv_rhs => rw [List.append_nil]
      rw [List.append_nil]
  | c :: rest, acc, nl => by
    by_cases hc : c = '\n'
    · subst hc
      rw [show sbGo ('\n' :: rest) acc nl = sbGo rest acc (nl + 1) by
          simp [sbGo],
        sbGo_words rest acc (nl + 1), List.replicate_succ',
        List.append_assoc, List.singleton_append]
    · by_cases h2 : 2 ≤ nl
      · rw [show sbGo (c :: rest) acc nl = acc.reverse :: sbGo rest [c] 0 by
            simp [sbGo, hc, h2]]
        show wordsOf acc.reverse ++ ((sbGo rest [c] 0).map wordsOf).flatten = _
        rw [sbGo_words rest [c] 0,
          show wordsOf (acc.reverse ++ (List.replicate nl '\n' ++ c :: rest)) =
            wordsAux (acc.reverse ++ (List.replicate nl '\n' ++ c :: rest)) []
            from rfl,
          wordsAux_mid_nl_run (by omega) acc.reverse (c :: rest) []]
        simp [wordsOf]
      · rw [show sbGo (c :: rest) acc nl =
            sbGo rest (c :: List.replicate nl '\n' ++ acc) 0 by
            simp [sbGo, hc, h2],
          sbGo_words rest _ 0]
        show wordsOf _ = wordsOf _
        congr 1
        simp [List.append_assoc]

/-! ## Plain-text projection lemmas -/

theorem walkList_append (l1 l2 : List JNode) :
    walkList (l1 ++ l2) = walkList l1 ++ walkList l2 := by
  induction l1 with
  | nil => rfl
  | cons n ns ih => simp [walkList, ih, List.append_assoc]

theorem splitOnChar_ne_nil (sep : Char) : ∀ cs, splitOnChar sep cs ≠ []
  | [] => by simp [splitOnChar]
  | c :: rest => by
    by_cases hc : c = sep
    · simp [splitOnChar, hc]
    · rw [splitOnChar, if_neg hc]
      cases hq : splitOnChar sep rest with
      | nil => simp
      | cons w ws => simp

/-- Splitting on a character and joining with that character round-trips. -/
theorem joinSep_splitOnChar (sep : Char) :
    ∀ cs, joinSep [sep] (splitOnChar sep cs) = cs
  | [] => rfl
  | c :: rest => by
    by_cases hc : c = sep
    · subst hc
      rw [show splitOnChar c (c :: rest) = [] :: splitOnChar c rest by
          simp [splitOnChar]]
      cases hq : splitOnChar c rest with
      | nil => exact absurd hq (splitOnChar_ne_nil c rest)
      | cons w ws =>
        have ih := joinSep_splitOnChar c rest
        rw [hq] at ih
        rw [joinSep_cons_cons, ih]
        rfl
    · rw [splitOnChar, if_neg hc]
      cases hq : splitOnChar sep rest with
      | nil => exact absurd hq (splitOnChar_ne_nil sep rest)
      | cons w ws =>
        have ih := joinSep_splitOnChar sep rest
        rw [hq] at ih
        cases ws with
        | nil =>
          simp only [joinSep] at ih ⊢
          rw [ih]
        | cons w2 ws2 =>
          rw [joinSep_cons_cons] at ih
          rw [joinSep_cons_cons,
            show (c :: w) ++ [sep] ++ joinSep [sep] (w2 :: ws2) =
              c :: (w ++ [sep] ++ joinSep [sep] (w2 :: ws2)) by simp,
            ih]

theorem walkOut_hardBreak : walkOut (JNode.node "hardBreak" []) = ['\n'] := by
  simp [walkOut, walkList]

theorem walkList_tiptapLines :
    ∀ ls : List (List Char), walkList (tiptapLines ls) = joinSep ['\n'] ls
  | [] => rfl
  | [t] => by
    by_cases ht : t.isEmpty
    · rw [show tiptapLines [t] = [] by simp [tiptapLines, ht]]
      rw [List.isEmpty_iff.mp ht]
      rfl
    · rw [show tiptapLines [t] = [JNode.text ⟨t⟩] by simp [tiptapLines, ht]]
      simp [walkList, walkOut, joinSep]
  | t :: u :: rest => by
    have ih := walkList_tiptapLines (u :: rest)
    rw [show tiptapLines (t :: u :: rest) =
        (if t.isEmpty then [] else [JNode.text ⟨t⟩]) ++
          (JNode.node "hardBreak" [] :: tiptapLines (u :: rest)) by
        simp [tiptapLines],
      walkList_append,
      show walkList (JNode.node "hardBreak" [] :: tiptapLines (u :: rest)) =
        ['\n'] ++ walkList (tiptapLines (u :: rest)) by
          rw [walkList, walkOut_hardBreak],
      ih, joinSep_cons_cons]
    by_cases ht : t.isEmpty
    · rw [if_pos ht, List.isEmpty_iff.mp ht]
      rfl
    · rw [if_neg ht]
      simp [walkList, walkOut]

theorem tiptapLines_nil_joinSep {ls : List (List Char)}
    (h : tiptapLines ls = []) : joinSep ['\n'] ls = [] := by
  match ls with
  | [] => rfl
  | [t] =>
    by_cases ht : t.isEmpty
    · rw [List.isEmpty_iff.mp ht]
      rfl
    · rw [show tiptapLines [t] = [JNode.text ⟨t⟩] by simp [tiptapLines, ht]]
        at h
      exact absurd h (by simp)
  | t :: u :: rest =>
    rw [show tiptapLines (t :: u :: rest) =
        (if t.isEmpty then [] else [JNode.text ⟨t⟩]) ++
          (JNode.node "hardBreak" [] :: tiptapLines (u :: rest)) by
        simp [tiptapLines]] at h
    exact absurd h (by simp)

/-- The walk of a compiled paragraph node is a line break followed by the
block's raw text. -/
theorem walkOut_paragraphToTiptap (par : List Char) :
    walkOut (paragraphToTiptap par) = '\n' :: par := by
  rw [paragraphToTiptap]
  cases hq : tiptapLines (splitOnChar '\n' par) with
  | nil =>
    have h1 : joinSep ['\n'] (splitOnChar '\n' par) = [] :=
      tiptapLines_nil_joinSep hq
    rw [joinSep_splitOnChar '\n' par] at h1
    rw [h1]
    simp [walkOut, walkList]
  | cons n ns =>
    rw [show (if (n :: ns : List JNode).isEmpty then [JNode.text ""]
        else n :: ns) = n :: ns by simp]
    rw [show walkOut (JNode.node "paragraph" (n :: ns)) =
        '\n' :: walkList (n :: ns) by simp [walkOut]]
    rw [← hq, walkList_tiptapLines, joinSep_splitOnChar]

theorem wordsOf_nl_blocks :
    ∀ blocks : List (List Char),
      wordsOf ((blocks.map (fun b => '\n' :: b)).flatten) =
        (blocks.map wordsOf).flatten
  | [] => rfl
  | b :: bs => by
    rw [List.map_cons, List.flatten_cons]
    cases hb : bs with
    | nil =>
      simp only [List.map_nil, List.flatten_nil, List.append_nil, List.map_cons,
        List.flatten_cons]
      rw [show ('\n' :: b : List Char) = [] ++ '\n' :: b from rfl, wordsOf,
        wordsAux_append_ws (show isWS '\n' = true from rfl) [] [] b]
      rfl
    | cons b2 bs2 =>
      have ih := wordsOf_nl_blocks (b2 :: bs2)
      rw [List.map_cons, List.flatten_cons] at ih
      rw [List.map_cons, List.flatten_cons,
        show ('\n' :: b) ++ (('\n' :: b2) ++ ((bs2.map fun b => '\n' :: b)).flatten) =
          [] ++ '\n' :: (b ++ '\n' :: (b2 ++ ((bs2.map fun b => '\n' :: b)).flatten))
          by simp,
        wordsOf, wordsAux_append_ws (show isWS '\n' = true from rfl) [] [],
        wordsAux_append_ws (show isWS '\n' = true from rfl) b []]
      rw [show ('\n' :: b2) ++ ((bs2.map fun b => '\n' :: b)).flatten =
          [] ++ '\n' :: (b2 ++ ((bs2.map fun b => '\n' :: b)).flatten) by simp,
        wordsOf, wordsAux_append_ws (show isWS '\n' = true from rfl) [] []] at ih
      simp only [List.map_cons, List.flatten_cons]
      rw [show wordsAux ([] : List Char) [] = [] from rfl] at ih ⊢
      rw [List.nil_append] at ih ⊢
      rw [ih]
      rfl

theorem flatten_map_wordsOf_filter :
    ∀ l : List (List Char),
      ((l.filter (fun b => !b.isEmpty)).map wordsOf).flatten =
        (l.map wordsOf).flatten
  | [] => rfl
  | b :: bs => by
    by_cases hbe : b = []
    · subst hbe
      rw [show List.filter (fun b => !b.isEmpty) ([] :: bs) =
          List.filter (fun b => !b.isEmpty) bs by simp [List.filter_cons],
        flatten_map_wordsOf_filter bs]
      rfl
    · rw [show List.filter (fun b => !b.isEmpty) (b :: bs) =
          b :: List.filter (fun b => !b.isEmpty) bs by
          simp [List.filter_cons, hbe]]
      simp only [List.map_cons, List.flatten_cons]
      rw [flatten_map_wordsOf_filter bs]

theorem walkList_map_paragraphs (l : List (List Char)) :
    walkList (l.map paragraphToTiptap) =
      (l.map (fun blk => '\n' :: blk)).flatten := by
  induction l with
  | nil => rfl
  | cons x xs ih =>
    rw [List.map_cons, List.map_cons, List.flatten_cons,
      show walkList (paragraphToTiptap x :: xs.map paragraphToTiptap) =
        walkOut (paragraphToTiptap x) ++ walkList (xs.map paragraphToTiptap)
        from rfl,
      walkOut_paragraphToTiptap, ih]

/-- The word structure survives the full round trip through the compiler and
the plain-text projection. -/
theorem words_roundTrip (b : String) :
    wordsOf (editorToPlainText (textToDoc b)).data = wordsOf b.data := by
  have htrimmed :
      (((splitBlocks (normNL b.data)).map jsTrim).map wordsOf).flatten =
        wordsOf b.data := by
    rw [List.map_map]
    have hcongr : List.map (wordsOf ∘ jsTrim) (splitBlocks (normNL b.data)) =
        List.map wordsOf (splitBlocks (normNL b.data)) :=
      List.map_congr_left (fun x _ => wordsOf_jsTrim x)
    rw [hcongr, splitBlocks, sbGo_words (normNL b.data) [] 0]
    simpa using wordsAux_normNL b.data []
  have hcn : wordsOf (collapseNL (walkOut (textToDoc b))) =
      wordsOf (walkOut (textToDoc b)) := by
    rw [collapseNL, wordsOf, wordsAux_cnGo _ 0 []]
    rfl
  have hmain : wordsOf (walkOut (textToDoc b)) = wordsOf b.data := by
    simp only [textToDoc]
    by_cases hbk :
        (((splitBlocks (normNL b.data)).map jsTrim).filter
          (fun x => !x.isEmpty)).isEmpty = true
    · rw [if_pos hbk]
      have h1 : wordsOf (walkOut (JNode.node "doc" [JNode.node "paragraph" []]))
          = [] := by
        simp [walkOut, walkList, wordsOf, wordsAux, flushAcc, isWS]
      rw [h1]
      have hall := List.filter_eq_nil_iff.mp (List.isEmpty_iff.mp hbk)
      have hz : (((splitBlocks (normNL b.data)).map jsTrim).map wordsOf).flatten
          = [] := by
        apply List.flatten_eq_nil_iff.mpr
        intro l hl
        rcases List.mem_map.mp hl with ⟨x, hx, rfl⟩
        have hxe : x = [] := by
          have h2 := hall x hx
          cases x with
          | nil => rfl
          | cons y ys => simp at h2
        rw [hxe]
        rfl
      rw [hz] at htrimmed
      exact htrimmed
    · rw [if_neg hbk]
      rw [show walkOut (JNode.node "doc"
          ((((splitBlocks (normNL b.data)).map jsTrim).filter
            (fun x => !x.isEmpty)).map paragraphToTiptap)) =
          walkList ((((splitBlocks (normNL b.data)).map jsTrim).filter
            (fun x => !x.isEmpty)).map paragraphToTiptap) by simp [walkOut],
        walkList_map_paragraphs, wordsOf_nl_blocks,
        flatten_map_wordsOf_filter]
      exact htrimmed
  show wordsOf (jsTrim (collapseNL (walkOut (textToDoc b)))) = wordsOf b.data
  rw [wordsOf_jsTrim, hcn, hmain]

/-! ## Claim theorems: classifier and projection -/

theorem headDigitOK_one_two {l : List Char} (h : headDigitOK ['1'] l = true) :
    headDigitOK ['1', '2'] l = true := by
  cases l with
  | nil => simp [headDigitOK] at h
  | cons c t =>
    simp only [headDigitOK, List.contains_cons] at h ⊢
    rcases Bool.or_eq_true_iff.mp h with h1 | h1
    · exact Bool.or_eq_true_iff.mpr (Or.inl h1)
    · simp [List.contains] at h1

theorem heading1Re_implies_style :
    ∀ s : List Char, heading1Re s = true → headingStyleRe s = true
  | c :: rest, h => by
    rw [heading1Re] at h
    rw [headingStyleRe]
    rcases Bool.or_eq_true_iff.mp h with h1 | h1
    · rcases Bool.and_eq_true_iff.mp h1 with ⟨hpre, hdig⟩
      exact Bool.or_eq_true_iff.mpr (Or.inl (Bool.and_eq_true_iff.mpr
        ⟨hpre, headDigitOK_one_two hdig⟩))
    · exact Bool.or_eq_true_iff.mpr (Or.inr (heading1Re_implies_style rest h1))

/-- C5: `isAllCapsShort` (the spec's `isShoutingHeading`) returns true iff
the whitespace-normalised string is non-empty, has length at most 44,
contains at least 6 uppercase ASCII letters A-Z (other characters are not
counted), and equals its own uppercasing; in particular it returns true for
"THE END", false for "A", and false for "the end". -/
theorem claim_C5_shouting_heading :
    (∀ s : String, isAllCapsShort s = true ↔
      ((cleanS s).data ≠ [] ∧ (cleanS s).length ≤ 44 ∧
        6 ≤ ((cleanS s).data.filter (fun c => 'A' ≤ c && c ≤ 'Z')).length ∧
        (cleanS s).data = jsUpperStr (cleanS s).data)) ∧
    isAllCapsShort "THE END" = true ∧ isAllCapsShort "A" = false ∧
    isAllCapsShort "the end" = false := by
  refine ⟨fun s => ?_, by decide, by decide, by decide⟩
  unfold isAllCapsShort
  by_cases h1 : (cleanS s).data.isEmpty
  · rw [if_pos h1]
    simp only [Bool.false_eq_true, false_iff]
    intro hcon
    exact hcon.1 (List.isEmpty_iff.mp h1)
  · rw [if_neg h1]
    by_cases h2 : 44 < (cleanS s).length
    · rw [if_pos h2]
      simp only [Bool.false_eq_true, false_iff]
      intro hcon
      exact absurd hcon.2.1 (by omega)
    · rw [if_neg h2]
      rw [Bool.and_eq_true]
      simp only [decide_eq_true_eq]
      constructor
      · rintro ⟨hcount, heq⟩
        refine ⟨fun he => h1 (by simp [he]), by omega, hcount, heq⟩
      · rintro ⟨_, _, hcount, heq⟩
        exact ⟨hcount, heq⟩

/-- C6: every text whose normalised form starts, case-insensitively, with
`chapter` or `chap.` followed by whitespace and a number token (digits,
roman numeral, or a spelled-out word one..twelve) at a word boundary is
heading-like under every style hint; and the three examples of the spec. -/
theorem claim_C6_chapter_pattern :
    (∀ (text style : String), chapterShapeSpec (cleanS text).data = true →
      isHeadingLike text style = true) ∧
    isHeadingLike "Chapter 3" "" = true ∧
    isHeadingLike "Chapter Three: The Arrival" "" = true ∧
    isHeadingLike "it was a dark night" "" = false := by
  refine ⟨fun text style h => ?_, by decide, by decide, by decide⟩
  have hne : ¬(cleanS text).data.isEmpty = true := by
    intro he
    rw [List.isEmpty_iff.mp he] at h
    exact absurd h (by decide)
  have hmatch : chapterTest (cleanS text) = true := by
    rw [chapterTest]
    simp only [chapterShapeSpec] at h
    simp only [chapterMatchL]
    rcases Bool.or_eq_true_iff.mp h with h1 | h1 <;> simp [h1]
  simp only [isHeadingLike]
  rw [if_neg hne]
  simp [hmatch]

/-- C7: a paragraph whose text normalises to the empty string is never
heading-like, whatever the style hint says. -/
theorem claim_C7_blank_never_heading (text style : String)
    (h : (cleanS text).data = []) : isHeadingLike text style = false := by
  simp [isHeadingLike, h]

/-- C10: for non-blank text, a style hint whose lowercasing contains
`heading` + optional whitespace + `1` or `2` anywhere makes the paragraph
heading-like ("Subheading 1" and "Heading 10" qualify), while the title
branch needs the lowercased style hint to equal `title` exactly, so
"Title Page" does not classify via style. -/
theorem claim_C10_style_branch :
    (∀ (text style : String), (cleanS text).data ≠ [] →
      headingStyleRe (style.data.map jsLower) = true →
      isHeadingLike text style = true) ∧
    isHeadingLike "hello" "Subheading 1" = true ∧
    isHeadingLike "hello" "Heading 10" = true ∧
    isHeadingLike "hello" "Title Page" = false := by
  refine ⟨fun text style hne hsty => ?_, by decide, by decide, by decide⟩
  simp only [isHeadingLike]
  rw [if_neg (by simpa [List.isEmpty_iff] using hne)]
  simp [hsty]

/-- C8: projecting a compiled document back to plain text and re-normalising
whitespace recovers the body text with its whitespace runs collapsed, and
the projection is deterministic on a fixed document value. -/
theorem claim_C8_plaintext_projection :
    (∀ b : String, cleanS (editorToPlainText (textToDoc b)) = cleanS b) ∧
    (∀ d : JNode, editorToPlainText d = editorToPlainText d) := by
  refine ⟨fun b => ?_, fun d => rfl⟩
  rw [clean_eq_words, clean_eq_words, words_roundTrip]

/-- C9: when neither the filename extension nor the declared media type
matches RTF or DOCX, `parseImportFile` fails immediately with the
unsupported-format error (no decoder is selected, hence no partial result);
an RTF match (extension `rtf` or media type containing `rtf`) selects the
RTF decoder, and otherwise a DOCX match (extension `docx` or media type
containing `officedocument`) selects the DOCX decoder. -/
theorem claim_C9_format_routing (name ftype : String) :
    (extOf (effName name) ≠ "rtf" → extOf (effName name) ≠ "docx" →
      containsSub ftype "rtf" = false →
      containsSub ftype "officedocument" = false →
      parseImportFileRoute name ftype =
        Except.error "Unsupported file type. Please use .docx or .rtf") ∧
    ((extOf (effName name) = "rtf" ∨ containsSub ftype "rtf" = true) →
      parseImportFileRoute name ftype = Except.ok Decoder.rtf) ∧
    ((extOf (effName name) = "docx" ∨
        containsSub ftype "officedocument" = true) →
      extOf (effName name) ≠ "rtf" → containsSub ftype "rtf" = false →
      parseImportFileRoute name ftype = Except.ok Decoder.docx) := by
  refine ⟨?_, ?_, ?_⟩
  · intro h1 h2 h3 h4
    simp [parseImportFileRoute, h1, h2, h3, h4]
  · intro h
    rcases h with h | h <;> simp [parseImportFileRoute, h]
  · intro h h1 h2
    rcases h with h | h <;> simp [parseImportFileRoute, h, h1, h2]

/-- Witness for C9 at a concrete unsupported file. -/
theorem claim_C9_witness :
    parseImportFileRoute "notes.txt" "text/plain" =
      Except.error "Unsupported file type. Please use .docx or .rtf" :=
  (claim_C9_format_routing "notes.txt" "text/plain").1 (by decide) (by decide)
    (by decide) (by decide)

/-- Witness for C6 at the spec's own example. -/
theorem claim_C6_witness : isHeadingLike "Chapter 3" "" = true :=
  claim_C6_chapter_pattern.1 "Chapter 3" "" (by decide)

/-- Witness for C7 at a whitespace-only paragraph with a Title style. -/
theorem claim_C7_witness : isHeadingLike "   " "Title" = false :=
  claim_C7_blank_never_heading "   " "Title" (by decide)

/-- Witness for C10 at a "Subheading 1" style hint. -/
theorem claim_C10_witness : isHeadingLike "hello" "Subheading 1" = true :=
  claim_C10_style_branch.1 "hello" "Subheading 1" (by decide) (by decide)

/-! ## Segmentation lemmas -/

theorem finalize_length : ∀ (i : Nat) (l : List Chapter),
    (finalize i l).length = l.length
  | _, [] => rfl
  | i, c :: rest => by
    rw [finalize, List.length_cons, List.length_cons,
      finalize_length (i + 1) rest]

theorem mem_filterParas_clean_ne {p : Para} {ps : List Para}
    (h : p ∈ filterParas ps) : (cleanS p.text).data ≠ [] := by
  have := List.of_mem_filter h
  intro he
  rw [he] at this
  simp at this

/-- A paragraph satisfying the title-extraction condition is heading-like
(its style hint is `title` or matches `heading 1`). -/
theorem titleCond_implies_heading {p : Para}
    (hne : (cleanS p.text).data ≠ []) (h : titleCond p = true) :
    isHeadingLike p.text p.style = true := by
  simp only [titleCond, Bool.and_eq_true] at h
  obtain ⟨-, hsty⟩ := h
  simp only [isHeadingLike]
  rw [if_neg (by simpa [List.isEmpty_iff] using hne)]
  rcases Bool.or_eq_true_iff.mp hsty with h1 | h1
  · simp [decide_eq_true_eq.mp h1]
  · simp [heading1Re_implies_style _ h1]

/-- Over a run of non-heading paragraphs, an open draft with a non-empty
body simply accumulates every raw text. -/
theorem segLoop_body_append :
    ∀ (rest : List Para) (ch : List Chapter) (d : Draft),
      (∀ p ∈ rest, isHeadingLike p.text p.style = false) →
      d.body ≠ [] →
      segLoop rest (ch, some d) =
        (ch, some ⟨d.title, d.body ++ rest.map Para.text⟩)
  | [], ch, d, _, _ => by simp [segLoop, List.foldl_nil]
  | p :: rest, ch, d, h, hb => by
    have hbe : d.body.isEmpty = false := by
      cases hq : d.body with
      | nil => exact absurd hq hb
      | cons x xs => rfl
    have hstep : segStep (ch, some d) p =
        (ch, some ⟨d.title, d.body ++ [p.text]⟩) := by
      simp [segStep, h p (by simp), hbe]
    rw [segLoop, List.foldl_cons, ← segLoop, hstep,
      segLoop_body_append rest ch ⟨d.title, d.body ++ [p.text]⟩
        (fun q hq => h q (by simp [hq])) (by simp)]
    simp

/-- Over a run of non-heading paragraphs, no chapter is ever committed and
the draft stays open. -/
theorem segLoop_no_heading_keeps :
    ∀ (rest : List Para) (ch : List Chapter) (d : Draft),
      (∀ p ∈ rest, isHeadingLike p.text p.style = false) →
      ∃ d', segLoop rest (ch, some d) = (ch, some d')
  | [], ch, d, _ => ⟨d, rfl⟩
  | p :: rest, ch, d, h => by
    rw [segLoop, List.foldl_cons, ← segLoop]
    have hstep : ∃ d1, segStep (ch, some d) p = (ch, some d1) := by
      simp only [segStep, h p (by simp), Bool.false_eq_true, if_false]
      by_cases hcond : (d.body.isEmpty && !(cleanS p.text).data.isEmpty &&
          decide ((cleanS p.text).length ≤ 60) && !endsPunct (cleanS p.text) &&
          (chapterTest (cleanS d.title) || partTest (cleanS d.title) ||
            frontTest (cleanS d.title))) = true
      · exact ⟨_, by rw [if_pos hcond]⟩
      · exact ⟨_, by rw [if_neg hcond]⟩
    obtain ⟨d1, hd1⟩ := hstep
    rw [hd1]
    exact segLoop_no_heading_keeps rest ch d1
      (fun q hq => h q (by simp [hq]))

/-! ## Claim theorems: segmentation -/

theorem length_ite_chapters (l : List Chapter) (x : Chapter) :
    1 ≤ (if l.isEmpty then [x] else l).length := by
  split
  · simp
  · next h =>
    have h1 : l ≠ [] := fun he => h (by simp [he])
    have := List.length_pos.mpr h1
    omega

/-- C1: `splitFromParagraphs` is total (a Lean function), always returns at
least one chapter, and on an input with no usable paragraphs (everything
filtered out) returns exactly one chapter titled "Chapter 1" whose document
body is the empty document (one empty paragraph node); `textToDoc ""` is
that empty document. -/
theorem claim_C1_segmentation_total (ps : List Para) (fb : String) :
    1 ≤ (splitFromParagraphs ps fb).chapters.length ∧
    (filterParas ps = [] →
      (splitFromParagraphs ps fb).chapters =
        [⟨"Chapter 1", textToDoc ""⟩] ∧
      textToDoc "" = JNode.node "doc" [JNode.node "paragraph" []]) := by
  constructor
  · simp only [splitFromParagraphs]
    rw [finalize_length]
    exact length_ite_chapters _ _
  · intro h
    refine ⟨?_, rfl⟩
    simp only [splitFromParagraphs, h]
    rfl

/-- Witness for C1: a single whitespace-only paragraph filters to nothing. -/
theorem claim_C1_witness :
    1 ≤ (splitFromParagraphs [⟨"  ", "Title"⟩] "T").chapters.length ∧
    (splitFromParagraphs [⟨"  ", "Title"⟩] "T").chapters =
      [⟨"Chapter 1", textToDoc ""⟩] :=
  ⟨(claim_C1_segmentation_total [⟨"  ", "Title"⟩] "T").1,
   ((claim_C1_segmentation_total [⟨"  ", "Title"⟩] "T").2 (by decide)).1⟩

/-- A non-heading paragraph with no open draft opens a synthetic draft; when
the subtitle condition fails (too long or terminal punctuation) its text
becomes the first body paragraph. -/
theorem segStep_none_no_merge (ch : List Chapter) (q : Para)
    (hq : isHeadingLike q.text q.style = false)
    (hcond : 60 < (cleanS q.text).length ∨ endsPunct (cleanS q.text) = true) :
    segStep (ch, none) q =
      (ch, some ⟨"Chapter " ++ toString (ch.length + 1), [q.text]⟩) := by
  simp only [segStep, hq, Bool.false_eq_true, if_false]
  rw [if_neg ?hc]
  · rfl
  case hc =>
    intro htrue
    rcases Bool.and_eq_true_iff.mp htrue with ⟨h4, -⟩
    rcases Bool.and_eq_true_iff.mp h4 with ⟨h3, hD⟩
    rcases Bool.and_eq_true_iff.mp h3 with ⟨-, hC⟩
    rcases hcond with hgt | hpe
    · exact absurd (of_decide_eq_true hC) (by omega)
    · rw [hpe] at hD
      simp at hD

/-- Over a non-empty run of non-heading paragraphs started with no open
draft, no chapter is committed and the loop ends with an open draft. -/
theorem segLoop_none_keeps (paras : List Para)
    (h : ∀ p ∈ paras, isHeadingLike p.text p.style = false)
    (hne : paras ≠ []) :
    ∃ d', segLoop paras ([], none) = ([], some d') := by
  cases paras with
  | nil => exact absurd rfl hne
  | cons q rest =>
    rw [show segLoop (q :: rest) ([], none) =
        segLoop rest (segStep ([], none) q) from rfl]
    have hstep : ∃ d0, segStep (([] : List Chapter), none) q =
        ([], some d0) := by
      simp only [segStep, h q (by simp), Bool.false_eq_true, if_false]
      by_cases hcond : ((([] : List String).isEmpty &&
          !(cleanS q.text).data.isEmpty &&
          decide ((cleanS q.text).length ≤ 60) &&
          !endsPunct (cleanS q.text) &&
          (chapterTest (cleanS ("Chapter " ++
              toString ((([] : List Chapter)).length + 1))) ||
            partTest (cleanS ("Chapter " ++
              toString ((([] : List Chapter)).length + 1))) ||
            frontTest (cleanS ("Chapter " ++
              toString ((([] : List Chapter)).length + 1))))) = true)
      · exact ⟨_, by rw [if_pos hcond]⟩
      · exact ⟨_, by rw [if_neg hcond]⟩
    obtain ⟨d0, hd0⟩ := hstep
    rw [hd0]
    exact segLoop_no_heading_keeps rest [] d0 (fun p hp => h p (by simp [hp]))

theorem finalize_singleton (c : Chapter) :
    finalize 0 [c] =
      [⟨if (cleanS c.title).data.isEmpty then "Chapter 1"
        else cleanS c.title, c.doc⟩] := by
  simp only [finalize]
  split <;> rfl

/-- C2 fails as stated: the input ["Hello world"] has no heading-like
paragraph, yet the single returned chapter is titled
"Chapter 1: Hello world" (the subtitle merge fires against the synthetic
"Chapter 1" draft title) instead of "Chapter 1", and the text is folded
into the title rather than kept in the body. -/
theorem claim_C2_counterexample :
    (∀ p ∈ filterParas [⟨"Hello world", ""⟩],
      isHeadingLike p.text p.style = false) ∧
    (splitFromParagraphs [⟨"Hello world", ""⟩] "T").chapters.map Chapter.title
      = ["Chapter 1: Hello world"] ∧
    (splitFromParagraphs [⟨"Hello world", ""⟩] "T").chapters.map Chapter.title
      ≠ ["Chapter 1"] :=
  ⟨by decide, rfl, by decide⟩

/-- C2 (amended): with zero heading-like paragraphs the result has exactly
one chapter; and if additionally the first filtered paragraph's normalized
text is longer than 60 characters or ends in '.', '!' or '?' (so the
subtitle merge cannot fire), that chapter is titled "Chapter 1" and its
body is the raw text of all non-blank input paragraphs in original order,
joined by blank-line separators (and trimmed). -/
theorem claim_C2_amended (ps : List Para) (fb : String)
    (h1 : ∀ p ∈ filterParas ps, isHeadingLike p.text p.style = false) :
    (splitFromParagraphs ps fb).chapters.length = 1 ∧
    (∀ q rest, filterParas ps = q :: rest →
      (60 < (cleanS q.text).length ∨ endsPunct (cleanS q.text) = true) →
      (splitFromParagraphs ps fb).chapters =
        [⟨"Chapter 1",
          textToDoc (jsTrimS ⟨joinSep "\n\n".data
            ((filterParas ps).map (fun p => p.text.data))⟩)⟩]) := by
  have hext : ∀ fb' : String, extractTitle (filterParas ps) fb' =
      (fb', filterParas ps) := by
    intro fb'
    cases hq : filterParas ps with
    | nil => rfl
    | cons q rest =>
      have hq1 : q ∈ filterParas ps := by
        rw [hq]
        exact List.mem_cons_self q rest
      have htc : titleCond q = false := by
        cases htc : titleCond q with
        | false => rfl
        | true =>
          have := titleCond_implies_heading (mem_filterParas_clean_ne hq1) htc
          rw [h1 q hq1] at this
          exact absurd this (by simp)
      simp [extractTitle, htc]
  have hext2 : ∀ fb' : String, (extractTitle (filterParas ps) fb').2 =
      filterParas ps := fun fb' => by rw [hext fb']
  constructor
  · cases hq : filterParas ps with
    | nil =>
      simp only [splitFromParagraphs, hext2]
      rw [hq]
      rfl
    | cons q rest =>
      obtain ⟨d', hd'⟩ := segLoop_none_keeps (q :: rest)
        (by rw [← hq]; exact h1) (by simp)
      simp only [splitFromParagraphs, hext2]
      rw [hq, hd', finalize_length]
      simp [pushCurrent]
  · intro q rest hq2 hcond
    have hq1 : q ∈ filterParas ps := by
      rw [hq2]
      exact List.mem_cons_self q rest
    have hstep : segStep (([] : List Chapter), none) q =
        ([], some ⟨"Chapter 1", [q.text]⟩) := by
      rw [segStep_none_no_merge [] q (h1 q hq1) hcond]
      rfl
    have hloop := segLoop_body_append rest [] ⟨"Chapter 1", [q.text]⟩
      (fun p hp => h1 p (by rw [hq2]; simp [hp])) (by simp)
    simp only [splitFromParagraphs, hext2]
    rw [hq2]
    rw [show segLoop (q :: rest) ([], none) =
        segLoop rest (segStep ([], none) q) from rfl, hstep, hloop]
    rw [show pushCurrent [] (some ⟨"Chapter 1", [q.text] ++ rest.map Para.text⟩)
        = [⟨"Chapter 1", textToDoc (jsTrimS ⟨joinSep "\n\n".data
            (([q.text] ++ rest.map Para.text).map String.data)⟩)⟩] by
      simp only [pushCurrent]
      rw [if_neg (by decide)]
      rw [show cleanS "Chapter 1" = "Chapter 1" from rfl]
      rfl]
    simp only [List.isEmpty_cons, Bool.false_eq_true, if_false]
    rw [finalize_singleton]
    simp only [show ((cleanS "Chapter 1").data.isEmpty) = false from rfl,
      Bool.false_eq_true, if_false]
    rw [show cleanS "Chapter 1" = "Chapter 1" from rfl]
    simp only [List.cons_append, List.nil_append, List.map_cons, List.map_map]
    rfl

/-- Witness for C2 (amended) on a two-paragraph no-heading input whose first
paragraph ends in a period. -/
theorem claim_C2_witness :
    (splitFromParagraphs [⟨"Hello there.", ""⟩, ⟨"More text.", ""⟩]
      "T").chapters =
      [⟨"Chapter 1", textToDoc (jsTrimS ⟨joinSep "\n\n".data
        ((filterParas [⟨"Hello there.", ""⟩, ⟨"More text.", ""⟩]).map
          (fun p => p.text.data))⟩)⟩] :=
  (claim_C2_amended [⟨"Hello there.", ""⟩, ⟨"More text.", ""⟩] "T"
    (by decide)).2 ⟨"Hello there.", ""⟩ [⟨"More text.", ""⟩]
    (by decide) (Or.inr (by decide))

/-- C3 fails as stated in its "at most once per draft" part: after the first
merge the draft body is still empty and the merged title still matches the
chapter pattern, so a second short line merges again.  On
["Chapter 2", "The Arrival", "A Storm"] the single chapter is titled
"Chapter 2: The Arrival: A Storm" with an empty body, not
"Chapter 2: The Arrival" with body "A Storm". -/
theorem claim_C3_counterexample :
    (splitFromParagraphs
      [⟨"Chapter 2", ""⟩, ⟨"The Arrival", ""⟩, ⟨"A Storm", ""⟩] "T").chapters
      = [⟨"Chapter 2: The Arrival: A Storm", textToDoc ""⟩] ∧
    (splitFromParagraphs
      [⟨"Chapter 2", ""⟩, ⟨"The Arrival", ""⟩, ⟨"A Storm", ""⟩]
        "T").chapters.map Chapter.title ≠ ["Chapter 2: The Arrival"] :=
  ⟨rfl, by decide⟩

/-- C3 (amended): when the open draft has an empty body, its normalized
title matches the chapter, part or front-matter pattern, and the next
non-heading paragraph's normalized text is non-empty, at most 60 characters
and without terminal '.', '!' or '?', the segmentation step appends
": " + that text to the draft title and leaves the body empty — and this can
happen again for the following paragraph, since the body is still empty (the
"at most once per draft" part of the claim is dropped).  The §8 end-to-end
example still holds. -/
theorem claim_C3_amended :
    (∀ (chapters : List Chapter) (d : Draft) (p : Para),
      isHeadingLike p.text p.style = false →
      d.body = [] →
      (cleanS p.text).data ≠ [] →
      (cleanS p.text).length ≤ 60 →
      endsPunct (cleanS p.text) = false →
      (chapterTest (cleanS d.title) || partTest (cleanS d.title) ||
        frontTest (cleanS d.title)) = true →
      segStep (chapters, some d) p =
        (chapters, some ⟨cleanS d.title ++ ": " ++ cleanS p.text, []⟩)) ∧
    splitFromParagraphs
      [⟨"My Novel", "Title"⟩, ⟨"Chapter 1", ""⟩, ⟨"It was dawn.", ""⟩,
       ⟨"", ""⟩, ⟨"Chapter 2", ""⟩, ⟨"The Arrival", ""⟩,
       ⟨"She walked in.", ""⟩] "Untitled" =
      ⟨"My Novel",
       [⟨"Chapter 1", textToDoc "It was dawn."⟩,
        ⟨"Chapter 2: The Arrival", textToDoc "She walked in."⟩]⟩ := by
  constructor
  · intro ch d p hph hb hne hlen hp hpat
    have h1 : d.body.isEmpty = true := by rw [hb]; rfl
    have h2 : (cleanS p.text).data.isEmpty = false := by
      cases hq : (cleanS p.text).data with
      | nil => exact absurd hq hne
      | cons x xs => rfl
    simp only [segStep, hph, Bool.false_eq_true, if_false]
    rw [if_pos (by simp [h1, h2, hlen, hp, hpat]), hb]
  · rfl

/-- Witness for C3 (amended) at the "Chapter 2" / "The Arrival" step. -/
theorem claim_C3_witness :
    segStep ([], some ⟨"Chapter 2", []⟩) ⟨"The Arrival", ""⟩ =
      ([], some ⟨cleanS "Chapter 2" ++ ": " ++ cleanS "The Arrival", []⟩) :=
  claim_C3_amended.1 [] ⟨"Chapter 2", []⟩ ⟨"The Arrival", ""⟩
    (by decide) rfl (by decide) (by decide) (by decide) (by decide)

/-- C4 fails in its fallback part: with an empty `fallbackTitle` and a first
paragraph that does not satisfy the title condition, `novelTitle` is
"Untitled Novel" (the `fallbackTitle || "Untitled Novel"` default), not the
given (empty) fallback title. -/
theorem claim_C4_counterexample :
    filterParas [⟨"hello.", ""⟩] = [⟨"hello.", ""⟩] ∧
    titleCond ⟨"hello.", ""⟩ = false ∧
    (splitFromParagraphs [⟨"hello.", ""⟩] "").novelTitle = "Untitled Novel" ∧
    "Untitled Novel" ≠ ("" : String) :=
  ⟨by decide, by decide, by decide, by decide⟩

/-- C4 (amended): for a non-empty filtered paragraph stream,
`splitFromParagraphs` consumes the first paragraph as the novel title iff
its cleaned text is non-empty, at most 80 characters, matches none of the
chapter/part/front-matter patterns, and its lowercased style hint equals
`title` or matches `heading 1`; when the condition holds the remaining
stream drops the first paragraph (and any blank run after it), and when it
does not, the stream is unchanged and the novel title is the fallback —
which is the given `fallbackTitle` when non-empty and "Untitled Novel"
otherwise. -/
theorem claim_C4_amended (ps : List Para) (fb : String) (q : Para)
    (rest : List Para) (h : filterParas ps = q :: rest) :
    (splitFromParagraphs ps fb).novelTitle =
      (extractTitle (filterParas ps)
        (if fb.data.isEmpty then "Untitled Novel" else fb)).1 ∧
    ((!(cleanS q.text).data.isEmpty && (cleanS q.text).length ≤ 80 &&
      !chapterTest (cleanS q.text) && !partTest (cleanS q.text) &&
      !frontTest (cleanS q.text) &&
      (q.style.data.map jsLower = "title".data ||
        heading1Re (q.style.data.map jsLower))) = true →
      extractTitle (filterParas ps)
        (if fb.data.isEmpty then "Untitled Novel" else fb) =
        (cleanS q.text,
         rest.dropWhile (fun p => (cleanS p.text).data.isEmpty))) ∧
    ((!(cleanS q.text).data.isEmpty && (cleanS q.text).length ≤ 80 &&
      !chapterTest (cleanS q.text) && !partTest (cleanS q.text) &&
      !frontTest (cleanS q.text) &&
      (q.style.data.map jsLower = "title".data ||
        heading1Re (q.style.data.map jsLower))) = false →
      extractTitle (filterParas ps)
        (if fb.data.isEmpty then "Untitled Novel" else fb) =
        ((if fb.data.isEmpty then "Untitled Novel" else fb), q :: rest)) := by
  have hbridge : (!(cleanS q.text).data.isEmpty &&
      (cleanS q.text).length ≤ 80 &&
      !chapterTest (cleanS q.text) && !partTest (cleanS q.text) &&
      !frontTest (cleanS q.text) &&
      (q.style.data.map jsLower = "title".data ||
        heading1Re (q.style.data.map jsLower))) = titleCond q := rfl
  refine ⟨rfl, fun hc => ?_, fun hc => ?_⟩
  · have htc : titleCond q = true := by rw [← hbridge]; exact hc
    rw [h]
    simp [extractTitle, htc]
  · have htc : titleCond q = false := by rw [← hbridge]; exact hc
    rw [h]
    simp [extractTitle, htc]

/-- Witness for C4 at a "Title"-styled first paragraph. -/
theorem claim_C4_witness :
    (splitFromParagraphs [⟨"My Novel", "Title"⟩, ⟨"Body text.", ""⟩]
        "T").novelTitle =
      (extractTitle
        (filterParas [⟨"My Novel", "Title"⟩, ⟨"Body text.", ""⟩])
        (if ("T" : String).data.isEmpty then "Untitled Novel" else "T")).1 ∧
    extractTitle (filterParas [⟨"My Novel", "Title"⟩, ⟨"Body text.", ""⟩])
        (if ("T" : String).data.isEmpty then "Untitled Novel" else "T") =
      (cleanS "My Novel",
       ([⟨"Body text.", ""⟩] : List Para).dropWhile
         (fun p => (cleanS p.text).data.isEmpty)) :=
  ⟨(claim_C4_amended [⟨"My Novel", "Title"⟩, ⟨"Body text.", ""⟩] "T"
      ⟨"My Novel", "Title"⟩ [⟨"Body text.", ""⟩] (by decide)).1,
   (claim_C4_amended [⟨"My Novel", "Title"⟩, ⟨"Body text.", ""⟩] "T"
      ⟨"My Novel", "Title"⟩ [⟨"Body text.", ""⟩] (by decide)).2.1 (by decide)⟩
